import Mathlib

/-!
Shallow embedding of the trend-segmentation pipeline of
src/find_highs_lows.py (the same computations appear inline in src/emas.py).

Pandas/NumPy float series are modelled as functions of type
N -> Option Q : the value none stands for NaN (a missing float), some q
for a defined value.  The NaN conventions of pandas/NumPy that the source
relies on are reproduced exactly:
  * any ordered comparison with NaN is False (so abs NaN < tol is False),
  * np.sign NaN = NaN,
  * the Python test NaN != x is True for every x, including x = NaN,
  * Series.max and Series.min skip NaN, and a comparison against the max
    of an all-NaN series is False,
  * groupby cumsum leaves NaN cells NaN and skips them in the running sum,
  * rolling(w).mean() is NaN whenever the length-w window is incomplete or
    contains a NaN (the default min_periods = w).
-/

namespace Trading

/- Rational arithmetic must evaluate definitionally so that concrete runs
of the pipeline can be checked by decide: re-enable unfolding of the
arithmetic core of Rat, which Batteries seals for performance only. -/
attribute [local semireducible] Rat.add Rat.mul Rat.inv Rat.sub

unseal Nat.gcd

/-- A value of the region_boundaries column: NumPy sign values, where
none is NaN (the sign of an undefined cumulative derivative) and
some s a numeric sign s in -1, 0, 1.  The scan in identify_regions also
keeps a current sign that starts as Python None; that outer state is
modelled as Option PySign. -/
abbrev PySign := Option ℤ

/-- Trailing rolling mean of window p over a series of length N, pandas
rolling(window = p).mean(): defined at j iff the whole window
x (j - p + 1) .. x j exists inside the frame and contains no NaN. -/
def rollingMean (p N : ℕ) (x : ℕ → Option ℚ) (j : ℕ) : Option ℚ :=
  if _h : p ≤ j + 1 ∧ j < N ∧ ∀ t, t < p → (x (j - t)).isSome = true then
    some ((∑ t ∈ Finset.range p, (x (j - t)).getD 0) / (p : ℚ))
  else none

/-- A raw candle column (no NaN inside the frame) viewed as a pandas series. -/
def seriesOf (N : ℕ) (c : ℕ → ℚ) : ℕ → Option ℚ :=
  fun j => if j < N then some (c j) else none

/-- find_highs_lows.py line 38: Close.rolling(ma_period).mean().shift(-(ma_period/2))
(int truncation of ma_period / 2 is Nat division). -/
def smaF (N p : ℕ) (Close : ℕ → ℚ) : ℕ → Option ℚ :=
  fun i => rollingMean p N (seriesOf N Close) (i + p / 2)

/-- find_highs_lows.py line 39: the SMA column rolled again with window
smooth_period and shifted by -(smooth_period/2). -/
def ssmaF (N p sp : ℕ) (Close : ℕ → ℚ) : ℕ → Option ℚ :=
  fun i => rollingMean sp N (smaF N p Close) (i + sp / 2)

/-- pandas diff(): x i - x (i-1), NaN at index 0 and wherever either term
is NaN. -/
def derivOf (x : ℕ → Option ℚ) (i : ℕ) : Option ℚ :=
  if i = 0 then none else
    match x i, x (i - 1) with
    | some a, some b => some (a - b)
    | _, _ => none

/-- find_highs_lows.py line 47: first derivative of the smoothed SMA. -/
def derivF (N p sp : ℕ) (Close : ℕ → ℚ) : ℕ → Option ℚ :=
  derivOf (ssmaF N p sp Close)

/-- find_highs_lows.py line 48: zero_crossings = deriv.abs() < inflection_tol.
A NaN derivative compares False. -/
def crossingOf (tol : ℚ) (d : ℕ → Option ℚ) (i : ℕ) : Bool :=
  match d i with
  | some a => decide (|a| < tol)
  | none => false

/-- find_highs_lows.py line 57: groups = zero_crossings.cumsum(); the group
id of index i is the number of True cells at indices 0..i. -/
def groupsOf (zc : ℕ → Bool) (i : ℕ) : ℕ :=
  ((Finset.range (i + 1)).filter (fun j => zc j = true)).card

/-- find_highs_lows.py line 58: groupby(groups).cumsum() of the derivative:
at a NaN cell the result is NaN, at a defined cell it is the sum of the
defined derivative cells of the same group up to and including i. -/
def cum1Of (zc : ℕ → Bool) (d : ℕ → Option ℚ) (i : ℕ) : Option ℚ :=
  match d i with
  | none => none
  | some _ =>
    some (∑ j ∈ (Finset.range (i + 1)).filter
            (fun j => groupsOf zc j = groupsOf zc i), (d j).getD 0)

/-- One cell's contribution to the test group.max() < T and group.min() > -T:
a NaN cell is skipped by max/min, a defined cell must lie strictly inside
the open interval (-T, T). -/
def withinT (T : ℚ) (o : Option ℚ) : Bool :=
  match o with
  | none => true
  | some v => decide (-T < v) && decide (v < T)

/-- find_highs_lows.py lines 60-63 (reset_cumsum): the test
group.max() < noise_threshold and group.min() > -noise_threshold.
Since max and min skip NaN, the test holds iff the group has at least one
defined cumulative cell (an all-NaN max makes the comparison False) and
every defined cumulative cell lies strictly inside (-T, T). -/
def groupSmall (N : ℕ) (T : ℚ) (zc : ℕ → Bool) (d : ℕ → Option ℚ) (i : ℕ) : Bool :=
  ((List.range N).any fun j =>
      decide (groupsOf zc j = groupsOf zc i) && (cum1Of zc d j).isSome) &&
  ((List.range N).all fun j =>
      if groupsOf zc j = groupsOf zc i then withinT T (cum1Of zc d j) else true)

/-- find_highs_lows.py line 65: transform(reset_cumsum).  A small group is
replaced by pd.Series([0] * len(group)) - integer zeros, so even its NaN
cells become 0; any other group keeps its cumulative cells unchanged. -/
def cumOf (N : ℕ) (T : ℚ) (zc : ℕ → Bool) (d : ℕ → Option ℚ) (i : ℕ) : Option ℚ :=
  if i < N then
    (if groupSmall N T zc d i then some 0 else cum1Of zc d i)
  else none

/-- np.sign on a defined rational. -/
def signQ (q : ℚ) : ℤ :=
  if 0 < q then 1 else if q < 0 then -1 else 0

/-- find_highs_lows.py line 73: signs = np.sign(cumulative_deriv);
np.sign NaN = NaN. -/
def signAt (c : ℕ → Option ℚ) (i : ℕ) : PySign :=
  (c i).map signQ

/-- Python test sign != 0 at line 79: True for NaN (NaN != 0 is True) and
for any non-zero numeric sign. -/
def pyNeZero (x : PySign) : Bool :=
  match x with
  | none => true
  | some s => s != 0

/-- Python test sign != current_sign at line 79, where current_sign starts
as None: NaN differs from everything (including NaN itself), a number
differs from None, from NaN, and from a different number. -/
def pyNeCur (x : PySign) (cur : Option PySign) : Bool :=
  match x, cur with
  | none, _ => true
  | some _, none => true
  | some _, some none => true
  | some s, some (some t) => s != t

/-- The current_sign state of the scan in identify_regions (lines 74-83)
after the first n indices have been processed: starts as None (outer none)
and is overwritten by s n whenever s n != 0 and s n != current_sign. -/
def curSign (s : ℕ → PySign) : ℕ → Option PySign
  | 0 => none
  | n + 1 =>
    if pyNeZero (s n) && pyNeCur (s n) (curSign s n) then some (s n)
    else curSign s n

/-- The region_boundaries cell written at index i (line 83):
current_sign after processing i if it is set, else 0. -/
def regionValOf (s : ℕ → PySign) (i : ℕ) : PySign :=
  (curSign s (i + 1)).getD (some 0)

/-- Line 79-81: index i is appended to region_change_timestamps iff the
update condition fires at i while current_sign is already set (not None). -/
def isBoundary (s : ℕ → PySign) (i : ℕ) : Bool :=
  pyNeZero (s i) && pyNeCur (s i) (curSign s i) && (curSign s i).isSome

/-- The region_change_timestamps list produced by identify_regions. -/
def regionChangeIdx (N : ℕ) (s : ℕ → PySign) : List ℕ :=
  (List.range N).filter (isBoundary s)

/-- Negation of a NumPy sign value: -NaN = NaN. -/
def pyNeg (x : PySign) : PySign :=
  x.map (fun s => -s)

/-- pandas idxmax over the positional slice [s, e]: the first index of the
slice attaining the maximum (on an empty slice the code never calls it;
the fold then returns s). -/
def idxmaxIn (f : ℕ → ℚ) (s e : ℕ) : ℕ :=
  (List.range' s (e + 1 - s)).foldl (fun a j => if f a < f j then j else a) s

/-- pandas idxmin over the positional slice [s, e]: the first index of the
slice attaining the minimum. -/
def idxminIn (f : ℕ → ℚ) (s e : ℕ) : ℕ :=
  (List.range' s (e + 1 - s)).foldl (fun a j => if f j < f a then j else a) s

/-- The scan of identify_high_low_markers (lines 99-126) over the boundary
list, threading the previous boundary (the first round uses the series
start, i.e. prev = 0, and start_idx = max(0, prev - X) which is Nat
subtraction here).  For each boundary b the window is
[prev - X, min (N-1) (b + X)]; the sign examined is -region_boundaries[b];
a positive value records the window's idxmax of High, a negative value the
window's idxmin of Low, and NaN (or 0) records nothing. -/
def hlLoop (N : ℕ) (H L : ℕ → ℚ) (rb : ℕ → PySign) (X : ℕ) :
    ℕ → List ℕ → List ℕ × List ℕ
  | _, [] => ([], [])
  | prev, b :: rest =>
    let s := prev - X
    let e := min (N - 1) (b + X)
    let tail := hlLoop N H L rb X b rest
    match pyNeg (rb b) with
    | some v =>
      if 0 < v then (idxmaxIn H s e :: tail.1, tail.2)
      else if v < 0 then (tail.1, idxminIn L s e :: tail.2)
      else tail
    | none => tail

/-- The dataframe threaded through the pipeline: the candle columns plus
the derived columns each stage assigns.  Columns are total functions on
indices; cells at or beyond N are irrelevant padding. -/
structure Df where
  N : ℕ
  Open : ℕ → ℚ
  High : ℕ → ℚ
  Low : ℕ → ℚ
  Close : ℕ → ℚ
  Volume : ℕ → ℚ
  SMA : ℕ → Option ℚ
  SmoothedSMA : ℕ → Option ℚ
  deriv : ℕ → Option ℚ
  markers : ℕ → Option ℚ
  cumulative_deriv : ℕ → Option ℚ
  region_boundaries : ℕ → PySign
  region_change_markers : ℕ → Option ℚ
  high_markers : ℕ → Option ℚ
  low_markers : ℕ → Option ℚ

/-- find_highs_lows.py lines 34-41: assigns the SMA and Smoothed_SMA
columns. -/
def calculate_sma (df : Df) (ma_period smooth_period : ℕ) : Df :=
  { df with
    SMA := smaF df.N ma_period df.Close,
    SmoothedSMA := fun i =>
      rollingMean smooth_period df.N (smaF df.N ma_period df.Close)
        (i + smooth_period / 2) }

/-- find_highs_lows.py lines 43-51: assigns the derivative and markers
columns and returns the zero-crossing mask. -/
def calculate_derivative (df : Df) (inflection_tol : ℚ) : Df × (ℕ → Bool) :=
  let d := derivOf df.SmoothedSMA
  let zero_crossings := crossingOf inflection_tol d
  ({ df with
     deriv := d,
     markers := fun i => if zero_crossings i then df.SmoothedSMA i else none },
   zero_crossings)

/-- find_highs_lows.py lines 53-67: assigns the cumulative_deriv column. -/
def calculate_cumulative_deriv (df : Df) (zero_crossings : ℕ → Bool)
    (noise_threshold : ℚ) : Df :=
  { df with
    cumulative_deriv := cumOf df.N noise_threshold zero_crossings df.deriv }

/-- find_highs_lows.py lines 69-89: assigns region_boundaries and
region_change_markers and returns the boundary list. -/
def identify_regions (df : Df) : Df × List ℕ :=
  let s := signAt df.cumulative_deriv
  let B := regionChangeIdx df.N s
  ({ df with
     region_boundaries := regionValOf s,
     region_change_markers := fun i => if i ∈ B then some (df.Close i) else none },
   B)

/-- find_highs_lows.py lines 91-133: assigns the high_markers and
low_markers columns from the boundary windows. -/
def identify_high_low_markers (df : Df) (B : List ℕ) (X : ℕ) : Df :=
  { df with
    high_markers := fun i =>
      if i ∈ (hlLoop df.N df.High df.Low df.region_boundaries X 0 B).1
      then some (df.High i) else none,
    low_markers := fun i =>
      if i ∈ (hlLoop df.N df.High df.Low df.region_boundaries X 0 B).2
      then some (df.Low i) else none }

/-- A series is affine (perfectly linear) with slope m wherever it is
defined. -/
def affineOn (x : ℕ → Option ℚ) (c m : ℚ) : Prop :=
  ∀ u v, x u = some v → v = c + m * u

/-- A fresh dataframe over a single price column (every candle field set
to the same series; derived columns still unset, i.e. all NaN). -/
def mkDf (N : ℕ) (cl : ℕ → ℚ) : Df :=
  { N := N, Open := cl, High := cl, Low := cl, Close := cl,
    Volume := fun _ => 0,
    SMA := fun _ => none, SmoothedSMA := fun _ => none,
    deriv := fun _ => none, markers := fun _ => none,
    cumulative_deriv := fun _ => none,
    region_boundaries := fun _ => some 0,
    region_change_markers := fun _ => none,
    high_markers := fun _ => none, low_markers := fun _ => none }

/-- The pipeline up to and including calculate_cumulative_deriv, exactly
as wired in the main block (lines 186-188). -/
def stage3 (N : ℕ) (cl : ℕ → ℚ) (p sp : ℕ) (tol T : ℚ) : Df :=
  let df1 := calculate_sma (mkDf N cl) p sp
  let pr := calculate_derivative df1 tol
  calculate_cumulative_deriv pr.1 pr.2 T

/-- Concrete close series 0, 0, 6, 6 (length 4). -/
def closeA : ℕ → ℚ := fun i => if i < 2 then 0 else 6

/-- Concrete close series 0, 2, 0 (length 3). -/
def closeB : ℕ → ℚ := fun i => if i = 1 then 2 else 0

/-- Concrete close series 0, 20 (length 2). -/
def closeC : ℕ → ℚ := fun i => if i = 0 then 0 else 20

/-- Concrete close series 5, 7, 7, 20 (length 4). -/
def closeD : ℕ → ℚ := fun i => if i = 0 then 5 else if i = 3 then 20 else 7

/-- Concrete close series 0, 0, 0, 0, 8 (length 5). -/
def closeE : ℕ → ℚ := fun i => if i = 4 then 8 else 0

/-- Pipeline state after noise filtering for closeA with ma_period = 3,
smooth_period = 1, inflection_tol = 1/10, noise_threshold = 1. -/
def dfA : Df := stage3 4 closeA 3 1 (1 / 10) 1

/-- Pipeline state after noise filtering for closeB with ma_period = 1,
smooth_period = 1, inflection_tol = 1/10, noise_threshold = 2. -/
def dfB : Df := stage3 3 closeB 1 1 (1 / 10) 2

/-- Pipeline state after noise filtering for closeD with ma_period = 1,
smooth_period = 1, inflection_tol = 1/10, noise_threshold = 5. -/
def dfD : Df := stage3 4 closeD 1 1 (1 / 10) 5

/-- Derivative series of the closeC pipeline (ma_period = smooth_period = 1). -/
def dC : ℕ → Option ℚ := derivF 2 1 1 closeC

/-- Zero-crossing mask of the closeC pipeline with inflection_tol = 1/10. -/
def zcC : ℕ → Bool := crossingOf (1 / 10) dC

/-- Sign series of the closeD pipeline. -/
def sD : ℕ → PySign := signAt dfD.cumulative_deriv

/-- Sign series of the closeA pipeline. -/
def sA : ℕ → PySign := signAt dfA.cumulative_deriv

/-- A defined rolling-mean cell certifies its window guard. -/
theorem rollingMean_guard {p N : ℕ} {x : ℕ → Option ℚ} {j : ℕ} {a : ℚ}
    (h : rollingMean p N x j = some a) :
    p ≤ j + 1 ∧ j < N ∧ ∀ t, t < p → (x (j - t)).isSome = true := by
  by_cases hc : p ≤ j + 1 ∧ j < N ∧ ∀ t, t < p → (x (j - t)).isSome = true
  · exact hc
  · rw [rollingMean, dif_neg hc] at h
    exact Option.noConfusion h

/-- A defined SMA cell certifies the index bounds of its shifted window. -/
theorem smaF_isSome_bounds {N p : ℕ} {Close : ℕ → ℚ} {m : ℕ}
    (h : (smaF N p Close m).isSome = true) :
    p ≤ m + p / 2 + 1 ∧ m + p / 2 < N := by
  obtain ⟨v, hv⟩ := Option.isSome_iff_exists.mp h
  have g := rollingMean_guard
    (show rollingMean p N (seriesOf N Close) (m + p / 2) = some v from hv)
  exact ⟨g.1, g.2.1⟩

/-- withinT is the pointwise form of the skipna max/min threshold test. -/
theorem withinT_iff (T : ℚ) (o : Option ℚ) :
    withinT T o = true ↔ ∀ v, o = some v → -T < v ∧ v < T := by
  cases o with
  | none => simp [withinT]
  | some v => simp [withinT]

/-- groupSmall as a proposition: the group of i has a defined cumulative
cell and every defined cumulative cell of that group lies strictly inside
the open interval (-T, T). -/
theorem groupSmall_iff (N : ℕ) (T : ℚ) (zc : ℕ → Bool) (d : ℕ → Option ℚ) (i : ℕ) :
    groupSmall N T zc d i = true ↔
      ((∃ j, j < N ∧ groupsOf zc j = groupsOf zc i ∧ (cum1Of zc d j).isSome = true) ∧
       ∀ j v, j < N → groupsOf zc j = groupsOf zc i → cum1Of zc d j = some v →
         -T < v ∧ v < T) := by
  unfold groupSmall
  simp only [Bool.and_eq_true, List.any_eq_true, List.all_eq_true, List.mem_range,
    decide_eq_true_eq]
  constructor
  · rintro ⟨⟨j, hj, hg, hsome⟩, hall⟩
    refine ⟨⟨j, hj, hg, hsome⟩, ?_⟩
    intro j v hj hgj hv
    have hw := hall j hj
    rw [if_pos hgj] at hw
    exact (withinT_iff T _).mp hw v hv
  · rintro ⟨⟨j, hj, hg, hsome⟩, hall⟩
    refine ⟨⟨j, hj, hg, hsome⟩, ?_⟩
    intro j hj
    by_cases hgj : groupsOf zc j = groupsOf zc i
    · rw [if_pos hgj]
      exact (withinT_iff T _).mpr (fun v hv => hall j v hj hgj hv)
    · rw [if_neg hgj]

/-- The smallness test only depends on the group id. -/
theorem groupSmall_congr (N : ℕ) (T : ℚ) (zc : ℕ → Bool) (d : ℕ → Option ℚ)
    {j i : ℕ} (h : groupsOf zc j = groupsOf zc i) :
    groupSmall N T zc d j = groupSmall N T zc d i := by
  unfold groupSmall
  simp only [h]

/-- Shifting an affine series by k keeps it affine. -/
theorem affineOn_shift {y : ℕ → Option ℚ} {c m : ℚ} (k : ℕ) (hy : affineOn y c m) :
    affineOn (fun i => y (i + k)) (c + m * k) m := by
  intro u v h
  rw [hy (u + k) v h]
  push_cast
  ring

/-- A raw linear close column is affine wherever defined. -/
theorem affineOn_seriesOf (N : ℕ) (c m : ℚ) :
    affineOn (seriesOf N (fun j => c + m * j)) c m := by
  intro u v h
  unfold seriesOf at h
  by_cases hu : u < N
  · rw [if_pos hu] at h
    exact (Option.some.inj h).symm
  · rw [if_neg hu] at h
    exact Option.noConfusion h

/-- A trailing rolling mean of an affine series is affine (with the same
slope, offset by the mean of the window offsets). -/
theorem affineOn_rollingMean {x : ℕ → Option ℚ} {c m : ℚ} (p N : ℕ) (hp : 1 ≤ p)
    (hx : affineOn x c m) :
    affineOn (rollingMean p N x) (c - m * (((p : ℚ) - 1) / 2)) m := by
  intro j a h
  obtain ⟨h1, h2, h3⟩ := rollingMean_guard h
  rw [rollingMean, dif_pos ⟨h1, h2, h3⟩] at h
  have hval : ∀ t ∈ Finset.range p,
      (x (j - t)).getD 0 = (c + m * (j : ℚ)) - m * (t : ℚ) := by
    intro t ht
    have ht' := Finset.mem_range.mp ht
    obtain ⟨v, hv⟩ := Option.isSome_iff_exists.mp (h3 t ht')
    rw [hv, Option.getD_some, hx (j - t) v hv]
    have htj : t ≤ j := by omega
    rw [Nat.cast_sub htj]
    ring
  rw [Finset.sum_congr rfl hval] at h
  have hg : (∑ t ∈ Finset.range p, (t : ℚ)) = (p : ℚ) * ((p : ℚ) - 1) / 2 := by
    have hnat := Finset.sum_range_id_mul_two p
    have hcast := congrArg (fun n : ℕ => (n : ℚ)) hnat
    push_cast [Nat.cast_sub hp] at hcast
    linarith
  rw [Finset.sum_sub_distrib, Finset.sum_const, Finset.card_range, ← Finset.mul_sum,
    hg, nsmul_eq_mul] at h
  have ha := (Option.some.inj h).symm
  have hp0 : (p : ℚ) ≠ 0 := Nat.cast_ne_zero.mpr (by omega)
  rw [ha]
  field_simp
  ring

/-- The centered SMA of a linear close series is affine with the same slope. -/
theorem affineOn_smaF (N p : ℕ) (c m : ℚ) (hp : 1 ≤ p) :
    affineOn (smaF N p (fun j => c + m * j))
      ((c - m * (((p : ℚ) - 1) / 2)) + m * ((p / 2 : ℕ) : ℚ)) m := by
  intro u v h
  exact affineOn_shift (p / 2) (affineOn_rollingMean p N hp (affineOn_seriesOf N c m)) u v h

/-- The doubly smoothed SMA of a linear close series is affine with the
same slope. -/
theorem affineOn_ssmaF (N p sp : ℕ) (c m : ℚ) (hp : 1 ≤ p) (hsp : 1 ≤ sp) :
    affineOn (ssmaF N p sp (fun j => c + m * j))
      (((c - m * (((p : ℚ) - 1) / 2)) + m * ((p / 2 : ℕ) : ℚ))
        - m * (((sp : ℚ) - 1) / 2) + m * ((sp / 2 : ℕ) : ℚ)) m := by
  intro u v h
  exact affineOn_shift (sp / 2)
    (affineOn_rollingMean sp N hsp (affineOn_smaF N p c m hp)) u v h

/-- The first difference of an affine series equals its slope wherever
defined. -/
theorem derivOf_affine {x : ℕ → Option ℚ} {c m : ℚ} (hx : affineOn x c m)
    (i : ℕ) (d : ℚ) (h : derivOf x i = some d) : d = m := by
  unfold derivOf at h
  by_cases hi : i = 0
  · rw [if_pos hi] at h
    exact Option.noConfusion h
  rw [if_neg hi] at h
  rcases hA : x i with _ | a <;> rcases hB : x (i - 1) with _ | b <;>
    rw [hA, hB] at h <;> simp at h
  have ha := hx i a hA
  have hb := hx (i - 1) b hB
  have h1i : 1 ≤ i := by omega
  have hi1 : ((i - 1 : ℕ) : ℚ) = (i : ℚ) - 1 := by
    rw [Nat.cast_sub h1i, Nat.cast_one]
  rw [← h, ha, hb, hi1]
  ring

/-- The marker scan, characterized per boundary: pairing each boundary with
its predecessor (the threaded prev for the head), the recorded markers are
exactly the window extrema filtered by the sign test on -rb b. -/
theorem hlLoop_spec (N : ℕ) (H L : ℕ → ℚ) (rb : ℕ → PySign) (X : ℕ) :
    ∀ (B : List ℕ) (prev : ℕ),
      hlLoop N H L rb X prev B =
        (((prev :: B).zip B).filterMap (fun pb =>
            match pyNeg (rb pb.2) with
            | some v =>
              if 0 < v then some (idxmaxIn H (pb.1 - X) (min (N - 1) (pb.2 + X)))
              else none
            | none => none),
         ((prev :: B).zip B).filterMap (fun pb =>
            match pyNeg (rb pb.2) with
            | some v =>
              if v < 0 then some (idxminIn L (pb.1 - X) (min (N - 1) (pb.2 + X)))
              else none
            | none => none)) := by
  intro B
  induction B with
  | nil => intro prev; rfl
  | cons b rest ih =>
    intro prev
    simp only [hlLoop, List.zip_cons_cons, List.filterMap_cons, ih b]
    cases hr : pyNeg (rb b) with
    | none => simp
    | some v =>
      by_cases h1 : 0 < v
      · have h2 : ¬ v < 0 := by omega
        simp [h1, h2]
      · by_cases h2 : v < 0
        · simp [h1, h2]
        · simp [h1, h2]

/-- Claim C1 (corrected): the region sign written by identify_regions is
not the pointwise sign of the cumulative derivative; it is the latched
sign: at an index whose sign is non-zero (or undefined) the region value
equals that sign, and at an index whose sign is exactly 0 the region value
carries the previous index's region value (0 at index 0). -/
theorem region_sign_latches (c : ℕ → Option ℚ) (i : ℕ) :
    (signAt c i ≠ some 0 → regionValOf (signAt c) i = signAt c i) ∧
    (signAt c i = some 0 →
      regionValOf (signAt c) i =
        if i = 0 then some 0 else regionValOf (signAt c) (i - 1)) := by
  have hgen : ∀ s : ℕ → PySign,
      (s i ≠ some 0 → regionValOf s i = s i) ∧
      (s i = some 0 →
        regionValOf s i = if i = 0 then some 0 else regionValOf s (i - 1)) := by
    intro s
    constructor
    · intro hne
      have hz : pyNeZero (s i) = true := by
        cases hs : s i with
        | none => rfl
        | some z =>
          have hz0 : z ≠ 0 := fun h => hne (by rw [hs, h])
          simp [pyNeZero, hz0]
      by_cases hc : pyNeCur (s i) (curSign s i) = true
      · simp [regionValOf, curSign, hz, hc]
      · have hex : ∃ z, s i = some z ∧ curSign s i = some (some z) := by
          cases hs : s i with
          | none => rw [hs] at hc; exact absurd rfl hc
          | some z =>
            cases hcur2 : curSign s i with
            | none => rw [hs, hcur2] at hc; exact absurd rfl hc
            | some w =>
              cases w with
              | none => rw [hs, hcur2] at hc; exact absurd rfl hc
              | some t =>
                rw [hs, hcur2] at hc
                have hzt : z = t := by simpa [pyNeCur] using hc
                exact ⟨z, rfl, by rw [hzt]⟩
        obtain ⟨z, hs, hcz⟩ := hex
        have hcf : pyNeCur (s i) (curSign s i) = false := by
          cases hb : pyNeCur (s i) (curSign s i) with
          | false => rfl
          | true => exact absurd hb hc
        simp only [regionValOf, curSign, hcf, Bool.and_false, Bool.false_eq_true,
          if_false]
        rw [hcz, hs]
        rfl
    · intro h0
      have hz : pyNeZero (s i) = false := by rw [h0]; rfl
      cases i with
      | zero =>
        simp [regionValOf, curSign, hz]
      | succ n =>
        simp only [regionValOf, Nat.succ_ne_zero, if_false, Nat.succ_sub_one]
        conv_lhs => rw [curSign]
        rw [hz, Bool.false_and, if_neg (by simp : ¬ (false = true))]
  exact hgen (signAt c)

/-- Claim C1 counterexample: for the pipeline over closeB (ma_period = 1,
smooth_period = 1, inflection_tol = 1/10, noise_threshold = 2) the
cumulative derivative at index 2 has sign 0, yet identify_regions writes
region sign +1 there (the latched previous sign). -/
theorem region_sign_not_pointwise :
    signAt dfB.cumulative_deriv 2 = some 0 ∧
    (identify_regions dfB).1.region_boundaries 2 = some 1 ∧
    (identify_regions dfB).1.region_boundaries 2 ≠ signAt dfB.cumulative_deriv 2 := by
  refine ⟨by decide, by decide, by decide⟩

/-- Claim C1 witness: the latching law applied at index 1 of the closeB
pipeline, where the sign is non-zero. -/
theorem region_sign_latches_witness :
    signAt dfB.cumulative_deriv 1 ≠ some 0 ∧
    regionValOf (signAt dfB.cumulative_deriv) 1 = signAt dfB.cumulative_deriv 1 :=
  ⟨by decide, (region_sign_latches dfB.cumulative_deriv 1).1 (by decide)⟩

/-- Claim C2 (code bug): on the closeA pipeline (ma_period = 3,
smooth_period = 1, inflection_tol = 1/10, noise_threshold = 1) the
cumulative-derivative sign is undefined (NaN) at warm-up indices 0 and 1
and first becomes a defined non-zero value (+1) at index 2, yet
identify_regions records boundaries at indices 1 and 2 (and 3): the Python
test NaN != NaN succeeds, so the still-undefined current sign is treated
as an already-confirmed region and warm-up indices emit boundaries. -/
theorem warmup_nan_boundaries_eval :
    signAt dfA.cumulative_deriv 0 = none ∧
    signAt dfA.cumulative_deriv 1 = none ∧
    signAt dfA.cumulative_deriv 2 = some 1 ∧
    (identify_regions dfA).2 = [1, 2, 3] := by
  refine ⟨by decide, by decide, by decide, by decide⟩

/-- Claim C3 (corrected): a group is zeroed iff it has at least one defined
running-sum cell and every defined running-sum cell lies strictly inside
the open interval (-T, T) - i.e. the running sum never reaches +T nor -T;
a group is otherwise kept cell-for-cell.  (A group attaining exactly +T is
kept, not zeroed.) -/
theorem noise_rejection_strict_characterization
    (N : ℕ) (T : ℚ) (zc : ℕ → Bool) (d : ℕ → Option ℚ) (hT : 0 < T)
    (i : ℕ) (hi : i < N) :
    (((∃ j, j < N ∧ groupsOf zc j = groupsOf zc i ∧ (cum1Of zc d j).isSome = true) ∧
       ∀ j v, j < N → groupsOf zc j = groupsOf zc i → cum1Of zc d j = some v →
         -T < v ∧ v < T) ↔
      ∀ j, j < N → groupsOf zc j = groupsOf zc i → cumOf N T zc d j = some 0) ∧
    (¬ ((∃ j, j < N ∧ groupsOf zc j = groupsOf zc i ∧ (cum1Of zc d j).isSome = true) ∧
        ∀ j v, j < N → groupsOf zc j = groupsOf zc i → cum1Of zc d j = some v →
          -T < v ∧ v < T) →
      ∀ j, j < N → groupsOf zc j = groupsOf zc i → cumOf N T zc d j = cum1Of zc d j) := by
  constructor
  · constructor
    · intro hsmall j hj hg
      have hs : groupSmall N T zc d j = true := by
        rw [groupSmall_congr N T zc d hg]
        exact (groupSmall_iff N T zc d i).mpr hsmall
      simp [cumOf, hj, hs]
    · intro hall
      by_cases hs : groupSmall N T zc d i = true
      · exact (groupSmall_iff N T zc d i).mp hs
      · have hsf : groupSmall N T zc d i = false := by
          cases h : groupSmall N T zc d i with
          | false => rfl
          | true => exact absurd h hs
        constructor
        · have h0 := hall i hi rfl
          simp only [cumOf, hi, if_true, hsf, Bool.false_eq_true, if_false] at h0
          exact ⟨i, hi, rfl, by rw [h0]; rfl⟩
        · intro j v hj hg hv
          have hsj : groupSmall N T zc d j = false := by
            rw [groupSmall_congr N T zc d hg]; exact hsf
          have h0 := hall j hj hg
          simp only [cumOf, hj, if_true, hsj, Bool.false_eq_true, if_false] at h0
          have hv0 : v = 0 := Option.some.inj (hv ▸ h0)
          rw [hv0]
          exact ⟨neg_lt_zero.mpr hT, hT⟩
  · intro hns j hj hg
    have hsi : groupSmall N T zc d i = false := by
      cases h : groupSmall N T zc d i with
      | false => rfl
      | true => exact absurd ((groupSmall_iff N T zc d i).mp h) hns
    have hsj : groupSmall N T zc d j = false := by
      rw [groupSmall_congr N T zc d hg]; exact hsi
    simp [cumOf, hj, hsj]

/-- Claim C3 counterexample: on the closeC pipeline the single defined
running sum is exactly the threshold 20 - so the running sum never exceeds
+20 nor goes below -20 - yet the group is kept as computed (cumulative
cell 20), not zeroed: the source tests max < T strictly. -/
theorem noise_threshold_exact_kept :
    cum1Of zcC dC 0 = none ∧ cum1Of zcC dC 1 = some 20 ∧
    (20 : ℚ) ≤ 20 ∧ -(20 : ℚ) ≤ 20 ∧
    cumOf 2 20 zcC dC 1 = some 20 ∧ cumOf 2 20 zcC dC 1 ≠ some 0 := by
  refine ⟨by decide, by decide, by decide, by decide, by decide, by decide⟩

/-- Claim C3 witness: the non-small case of the characterization applied
to the closeC pipeline group, whose running sum reaches exactly 20. -/
theorem noise_rejection_strict_characterization_witness :
    cumOf 2 20 zcC dC 1 = cum1Of zcC dC 1 := by
  refine (noise_rejection_strict_characterization 2 20 zcC dC (by norm_num) 1
    (by norm_num)).2 ?_ 1 (by norm_num) rfl
  rintro ⟨-, hall⟩
  have h20 : cum1Of zcC dC 1 = some 20 := by decide
  have h := hall 1 20 (by norm_num) rfl h20
  exact absurd h.2 (by norm_num)

/-- Claim C4 (corrected): the SMA cell at i is the mean of the centered
window Close[i + p/2 - p + 1 .. i + p/2] (p/2 rounding down), not of the
forward window Close[i .. i+p-1]; it is defined exactly when
p - 1 - p/2 ≤ i and i + p/2 < N, i.e. it is undefined for the first
p - 1 - p/2 indices and the last p/2 indices of the frame. -/
theorem sma_centered_window (N p : ℕ) (Close : ℕ → ℚ) (i : ℕ) (_hp : 1 ≤ p) :
    (p - 1 - p / 2 ≤ i ∧ i + p / 2 < N →
      smaF N p Close i =
        some ((∑ t ∈ Finset.range p, Close (i + p / 2 - t)) / (p : ℚ))) ∧
    (i < p - 1 - p / 2 ∨ N ≤ i + p / 2 → smaF N p Close i = none) := by
  constructor
  · rintro ⟨h1, h2⟩
    have hcond : p ≤ i + p / 2 + 1 ∧ i + p / 2 < N ∧
        ∀ t, t < p → ((seriesOf N Close) (i + p / 2 - t)).isSome = true := by
      refine ⟨by omega, h2, ?_⟩
      intro t _
      simp [seriesOf, lt_of_le_of_lt (Nat.sub_le _ _) h2]
    rw [smaF, rollingMean, dif_pos hcond]
    have hsum : ∀ t ∈ Finset.range p,
        ((seriesOf N Close) (i + p / 2 - t)).getD 0 = Close (i + p / 2 - t) := by
      intro t _
      simp [seriesOf, lt_of_le_of_lt (Nat.sub_le _ _) h2]
    rw [Finset.sum_congr rfl hsum]
  · intro h
    rw [smaF, rollingMean, dif_neg]
    rintro ⟨ha, hb, -⟩
    omega

/-- Claim C4 counterexample: with the close series 0,0,0,0,8 (length 5)
and period 4, the SMA is undefined at index 0 (which the claim's
definedness rule would make defined), and at index 1 it equals 0, the mean
of the centered window Close[0..3], not 2, the mean of the claimed forward
window Close[1..4]. -/
theorem sma_window_mismatch :
    (calculate_sma (mkDf 5 closeE) 4 1).SMA 0 = none ∧
    (calculate_sma (mkDf 5 closeE) 4 1).SMA 1 = some 0 ∧
    (∑ t ∈ Finset.range 4, closeE (1 + t)) / (4 : ℚ) = 2 ∧
    (some (0 : ℚ) ≠ some (2 : ℚ)) := by
  refine ⟨by decide, by decide, by decide, by decide⟩

/-- Claim C4 witness: the centered-window law applied at index 1 of a
linear close series of length 5 with period 4. -/
theorem sma_centered_window_witness :
    smaF 5 4 (fun j => (j : ℚ)) 1 = some (3 / 2) := by
  have h := (sma_centered_window 5 4 (fun j => (j : ℚ)) 1 (by norm_num)).1 (by omega)
  rw [h]
  norm_num [Finset.sum_range_succ]

/-- Claim C5 (corrected): pairing each boundary with its predecessor (the
series start, index 0, for the first one), identify_high_low_markers
searches exactly the window [prev - padding, min (N-1) (b + padding)] and
records the window's first max-High index when the negated stored region
sign at b is positive, the window's first min-Low index when it is
negative, and nothing when the stored sign at b is NaN (or zero) - so a
boundary written while the cumulative sign is undefined yields no marker
even if an up-leg or down-leg has just ended. -/
theorem extremum_markers_characterization (N : ℕ) (H L : ℕ → ℚ)
    (rb : ℕ → PySign) (X : ℕ) (B : List ℕ) :
    hlLoop N H L rb X 0 B =
      (((0 :: B).zip B).filterMap (fun pb =>
          match pyNeg (rb pb.2) with
          | some v =>
            if 0 < v then some (idxmaxIn H (pb.1 - X) (min (N - 1) (pb.2 + X)))
            else none
          | none => none),
       ((0 :: B).zip B).filterMap (fun pb =>
          match pyNeg (rb pb.2) with
          | some v =>
            if v < 0 then some (idxminIn L (pb.1 - X) (min (N - 1) (pb.2 + X)))
            else none
          | none => none)) :=
  hlLoop_spec N H L rb X B 0

/-- Claim C5 counterexample: on the closeA pipeline the boundary at index 3
ends the up-leg whose region sign at index 2 is +1, yet no high marker is
recorded anywhere: the stored region sign at index 3 is NaN (undefined
cumulative derivative), so the sign test records nothing. -/
theorem marker_missing_after_upleg :
    (identify_regions dfA).2 = [1, 2, 3] ∧
    (identify_regions dfA).1.region_boundaries 2 = some 1 ∧
    (∀ i, i < 4 →
      (identify_high_low_markers (identify_regions dfA).1
        (identify_regions dfA).2 0).high_markers i = none) := by
  refine ⟨by decide, by decide, by decide⟩

/-- Claim C6 (corrected): the region-sign series can change at an index
that is not in regionChangeIndices in exactly one way - at the index where
the scan's current sign is first set (None before, set after); everywhere
else a change forces a boundary entry. -/
theorem region_sign_change_only_at_boundaries_or_first
    (N : ℕ) (s : ℕ → PySign) (i : ℕ) (h0 : 0 < i) (hN : i < N)
    (hmem : i ∉ regionChangeIdx N s)
    (hne : regionValOf s i ≠ regionValOf s (i - 1)) :
    curSign s i = none ∧ (curSign s (i + 1)).isSome = true := by
  have hb : isBoundary s i = false := by
    cases h : isBoundary s i with
    | false => rfl
    | true =>
      exact absurd (List.mem_filter.mpr ⟨List.mem_range.mpr hN, h⟩) hmem
  by_cases hc : (pyNeZero (s i) && pyNeCur (s i) (curSign s i)) = true
  · have hsome : (curSign s i).isSome = false := by
      have heq : isBoundary s i = (curSign s i).isSome := by
        unfold isBoundary
        rw [hc, Bool.true_and]
      rw [← heq, hb]
    constructor
    · cases h2 : curSign s i with
      | none => rfl
      | some w => rw [h2] at hsome; simp at hsome
    · conv_lhs => rw [curSign]
      rw [if_pos hc]
      rfl
  · exfalso
    apply hne
    unfold regionValOf
    have hi1 : i - 1 + 1 = i := by omega
    rw [hi1]
    conv_lhs => rw [curSign]
    rw [if_neg hc]

/-- Claim C6 counterexample: on the closeD pipeline the region sign changes
from 0 at index 2 to +1 at index 3 (the first confirmed sign), yet
regionChangeIndices is empty - the first confirmed sign starts the first
region without emitting a boundary. -/
theorem region_change_without_boundary :
    (identify_regions dfD).2 = [] ∧
    (identify_regions dfD).1.region_boundaries 3 = some 1 ∧
    (identify_regions dfD).1.region_boundaries 2 = some 0 := by
  refine ⟨by decide, by decide, by decide⟩

/-- Claim C6 witness: the first-confirmed-sign law applied at index 3 of
the closeD pipeline sign series. -/
theorem region_sign_change_only_at_boundaries_or_first_witness :
    curSign sD 3 = none ∧ (curSign sD 4).isSome = true :=
  region_sign_change_only_at_boundaries_or_first 4 sD 3 (by norm_num) (by norm_num)
    (by decide) (by decide)

/-- Claim C7 (corrected): the pipeline raises nothing on a short series; a
series shorter than ma_period + smooth_period is processed normally and
every derivative cell is simply undefined (the all-undefined output the
spec says should be surfaced as an error). -/
theorem short_series_derivative_undefined (N p sp : ℕ) (Close : ℕ → ℚ)
    (_hp : 1 ≤ p) (hsp : 1 ≤ sp) (hN : N < p + sp) :
    ∀ i, derivF N p sp Close i = none := by
  intro i
  cases hd : derivF N p sp Close i with
  | none => rfl
  | some d =>
    exfalso
    unfold derivF derivOf at hd
    by_cases hi : i = 0
    · rw [if_pos hi] at hd
      exact Option.noConfusion hd
    rw [if_neg hi] at hd
    rcases hA : ssmaF N p sp Close i with _ | a <;>
      rcases hB : ssmaF N p sp Close (i - 1) with _ | b <;>
      rw [hA, hB] at hd <;> simp at hd
    obtain ⟨gA1, gA2, gA3⟩ := rollingMean_guard
      (show rollingMean sp N (smaF N p Close) (i + sp / 2) = some a from hA)
    obtain ⟨gB1, gB2, gB3⟩ := rollingMean_guard
      (show rollingMean sp N (smaF N p Close) ((i - 1) + sp / 2) = some b from hB)
    have h1 := smaF_isSome_bounds (gA3 0 (by omega))
    have h2 := smaF_isSome_bounds (gB3 (sp - 1) (by omega))
    omega

/-- Claim C7 counterexample: a 5-candle series with ma_period 4 and
smooth_period 2 (5 < 4 + 2) flows through calculate_sma and
calculate_derivative without any error and yields a derivative column that
is undefined at every index - nothing is surfaced to the caller. -/
theorem short_series_silent_undefined :
    ((calculate_derivative (calculate_sma (mkDf 5 (fun j => (j : ℚ))) 4 2)
        (1 / 10)).1).deriv 0 = none ∧
    ((calculate_derivative (calculate_sma (mkDf 5 (fun j => (j : ℚ))) 4 2)
        (1 / 10)).1).deriv 1 = none ∧
    ((calculate_derivative (calculate_sma (mkDf 5 (fun j => (j : ℚ))) 4 2)
        (1 / 10)).1).deriv 2 = none ∧
    ((calculate_derivative (calculate_sma (mkDf 5 (fun j => (j : ℚ))) 4 2)
        (1 / 10)).1).deriv 3 = none ∧
    ((calculate_derivative (calculate_sma (mkDf 5 (fun j => (j : ℚ))) 4 2)
        (1 / 10)).1).deriv 4 = none := by
  refine ⟨by decide, by decide, by decide, by decide, by decide⟩

/-- Claim C7 witness: the short-series law applied to a 5-candle linear
series with ma_period 4 and smooth_period 2, at index 3. -/
theorem short_series_derivative_undefined_witness :
    derivF 5 4 2 (fun j => (j : ℚ)) 3 = none :=
  short_series_derivative_undefined 5 4 2 (fun j => (j : ℚ)) (by norm_num)
    (by norm_num) (by norm_num) 3

/-- Claim C8 (confirmed): for a perfectly linear close series of slope m
the derivative equals m wherever it is defined; in particular 20 candles
100..119 with ma_period 4 and smooth_period 2 give derivative 1 exactly on
indices 2..16 (undefined elsewhere) and an all-false zero-crossing mask
for every inflection tolerance below 1. -/
theorem linear_close_derivative :
    (∀ (N p sp : ℕ) (c m : ℚ) (i : ℕ) (d : ℚ), 1 ≤ p → 1 ≤ sp →
        derivF N p sp (fun j => c + m * (j : ℚ)) i = some d → d = m) ∧
    (∀ i, i < 20 →
        derivF 20 4 2 (fun j => 100 + (j : ℚ)) i =
          if 2 ≤ i ∧ i ≤ 16 then some 1 else none) ∧
    (∀ tol : ℚ, tol < 1 → ∀ i, i < 20 →
        crossingOf tol (derivF 20 4 2 (fun j => 100 + (j : ℚ))) i = false) := by
  have h2 : ∀ i, i < 20 →
      derivF 20 4 2 (fun j => 100 + (j : ℚ)) i =
        if 2 ≤ i ∧ i ≤ 16 then some 1 else none := by decide
  refine ⟨?_, h2, ?_⟩
  · intro N p sp c m i d hp hsp h
    exact derivOf_affine (affineOn_ssmaF N p sp c m hp hsp) i d h
  · intro tol htol i hi
    unfold crossingOf
    rw [h2 i hi]
    by_cases hc : 2 ≤ i ∧ i ≤ 16
    · rw [if_pos hc]
      exact decide_eq_false (by rw [abs_one]; intro h1; linarith)
    · rw [if_neg hc]

/-- Claim C8 witness: the linearity law applied to the 20-candle series
100..119 at index 5. -/
theorem linear_close_derivative_witness :
    derivF 20 4 2 (fun j => 100 + 1 * (j : ℚ)) 5 = some 1 ∧ (1 : ℚ) = 1 :=
  ⟨by decide, linear_close_derivative.1 20 4 2 100 1 5 1 (by norm_num)
    (by norm_num) (by decide)⟩

/-- Claim C9 (confirmed): each of the five pipeline stages leaves the
candle columns Open, High, Low, Close and Volume unchanged at every index;
the stages only assign derived columns. -/
theorem stages_preserve_candles (df : Df) (p sp : ℕ) (tol T : ℚ)
    (zc : ℕ → Bool) (B : List ℕ) (X : ℕ) (i : ℕ) :
    ((calculate_sma df p sp).Open i = df.Open i ∧
     (calculate_sma df p sp).High i = df.High i ∧
     (calculate_sma df p sp).Low i = df.Low i ∧
     (calculate_sma df p sp).Close i = df.Close i ∧
     (calculate_sma df p sp).Volume i = df.Volume i) ∧
    ((calculate_derivative df tol).1.Open i = df.Open i ∧
     (calculate_derivative df tol).1.High i = df.High i ∧
     (calculate_derivative df tol).1.Low i = df.Low i ∧
     (calculate_derivative df tol).1.Close i = df.Close i ∧
     (calculate_derivative df tol).1.Volume i = df.Volume i) ∧
    ((calculate_cumulative_deriv df zc T).Open i = df.Open i ∧
     (calculate_cumulative_deriv df zc T).High i = df.High i ∧
     (calculate_cumulative_deriv df zc T).Low i = df.Low i ∧
     (calculate_cumulative_deriv df zc T).Close i = df.Close i ∧
     (calculate_cumulative_deriv df zc T).Volume i = df.Volume i) ∧
    ((identify_regions df).1.Open i = df.Open i ∧
     (identify_regions df).1.High i = df.High i ∧
     (identify_regions df).1.Low i = df.Low i ∧
     (identify_regions df).1.Close i = df.Close i ∧
     (identify_regions df).1.Volume i = df.Volume i) ∧
    ((identify_high_low_markers df B X).Open i = df.Open i ∧
     (identify_high_low_markers df B X).High i = df.High i ∧
     (identify_high_low_markers df B X).Low i = df.Low i ∧
     (identify_high_low_markers df B X).Close i = df.Close i ∧
     (identify_high_low_markers df B X).Volume i = df.Volume i) :=
  ⟨⟨rfl, rfl, rfl, rfl, rfl⟩, ⟨rfl, rfl, rfl, rfl, rfl⟩, ⟨rfl, rfl, rfl, rfl, rfl⟩,
   ⟨rfl, rfl, rfl, rfl, rfl⟩, ⟨rfl, rfl, rfl, rfl, rfl⟩⟩

/-- Claim C10 (confirmed): with an empty boundary list,
identify_high_low_markers returns normally and both marker columns are
undefined at every index. -/
theorem empty_boundaries_no_markers (df : Df) (X : ℕ) (i : ℕ) :
    (identify_high_low_markers df [] X).high_markers i = none ∧
    (identify_high_low_markers df [] X).low_markers i = none := by
  constructor <;> simp [identify_high_low_markers, hlLoop]

end Trading
